import Mathlib

/-!
Verification of the core components of the WHIR polynomial-commitment
implementation: the radix-2 evaluation domain, the security-parameter
derivation engine, the Fiat-Shamir domain-separator builders, and the
single-round sumcheck prover.

Machine integers are modelled as `Nat`, field elements of the concrete
two-adic field (BabyBear, modulus 2^31 - 2^27 + 1) as `Nat` reduced
modulo the prime, generic field elements as elements of a commutative
ring, and `f64` protocol quantities as exact rationals.  Fallible or
panicking operations return `Option`.
-/

namespace WhirP3

/-! ### Bit arithmetic mirroring the integer operations used by the source

Fuel-carrying recursions are used so that every function is structurally
recursive and can be evaluated by the kernel. The fuel is always the
input itself, which is an upper bound on the number of halvings needed. -/

def nextPowTwoAux : Nat → Nat → Nat
  | 0, _ => 1
  | fuel + 1, n => if n ≤ 1 then 1 else 2 * nextPowTwoAux fuel ((n + 1) / 2)

/-- Rust `usize::next_power_of_two`: the smallest power of two that is
greater than or equal to `n` (`1` for `n = 0`). -/
def nextPowerOfTwo (n : Nat) : Nat := nextPowTwoAux n n

def trailingZerosAux : Nat → Nat → Nat
  | 0, _ => 0
  | fuel + 1, n => if n % 2 = 0 ∧ n ≠ 0 then trailingZerosAux fuel (n / 2) + 1 else 0

/-- Rust `u64::trailing_zeros` on a positive argument: the number of low zero
bits.  The source only applies it to powers of two, where it equals `log2`. -/
def trailingZeros (n : Nat) : Nat := trailingZerosAux n n

def log2Aux : Nat → Nat → Nat
  | 0, _ => 0
  | fuel + 1, n => if 2 ≤ n then log2Aux fuel (n / 2) + 1 else 0

/-- Base-2 logarithm, rounded down (`0` for `n = 0`). -/
def log2n (n : Nat) : Nat := log2Aux n n

/-! ### Concrete two-adic field model: BabyBear

The repository instantiates its field-generic code with Plonky3's BabyBear
field in every test.  We model field elements as naturals reduced modulo the
prime `2^31 - 2^27 + 1`; `31` is a generator of the multiplicative group, so
`31 ^ 15` generates the two-adic subgroup of order `2^27`. -/

def babyBearP : Nat := 2013265921

def TWO_ADICITY : Nat := 27

def powModAux (m : Nat) : Nat → Nat → Nat → Nat
  | 0, _, _ => 1 % m
  | fuel + 1, b, e =>
    if e = 0 then 1 % m
    else if e % 2 = 1 then (b * powModAux m fuel ((b * b) % m) (e / 2)) % m
    else powModAux m fuel ((b * b) % m) (e / 2)

/-- Modular exponentiation by repeated squaring. -/
def powMod (m b e : Nat) : Nat := powModAux m (e + 1) b e

/-- Field inverse via Fermat's little theorem, modelling `Field::inverse`. -/
def finv (x : Nat) : Nat := powMod babyBearP x (babyBearP - 2)

def sqIter (m : Nat) : Nat → Nat → Nat
  | x, 0 => x % m
  | x, j + 1 => sqIter m ((x * x) % m) j

/-- A generator of the order-`2 ^ TWO_ADICITY` subgroup of BabyBear. -/
def twoAdicRoot : Nat := powMod babyBearP 31 15

/-- Model of `TwoAdicField::two_adic_generator(k)`: the canonical generator of
the order-`2 ^ k` subgroup, obtained by repeatedly squaring the maximal root. -/
def two_adic_generator (k : Nat) : Nat := sqIter babyBearP twoAdicRoot (TWO_ADICITY - k)

/-- The evaluation domain of `src/domain/radix2.rs`, with field elements
modelled as naturals below the BabyBear prime. -/
structure Radix2EvaluationDomain where
  size : Nat
  log_size_of_group : Nat
  size_as_field_element : Nat
  size_inv : Nat
  group_gen : Nat
  group_gen_inv : Nat
  offset : Nat
  offset_inv : Nat
  offset_pow_size : Nat
deriving DecidableEq

/-- `Radix2EvaluationDomain::new`: round the requested size up to a power of
two, fail if it exceeds the field's two-adicity, otherwise derive the
subgroup generator and the stored inverses; the coset fields default to the
multiplicative identity. -/
def Radix2EvaluationDomain.new (num_coeffs : Nat) : Option Radix2EvaluationDomain :=
  let size := nextPowerOfTwo num_coeffs
  let log_size_of_group := trailingZeros size
  if log_size_of_group > TWO_ADICITY then none
  else
    let group_gen := two_adic_generator log_size_of_group
    let size_as_field_element := size % babyBearP
    let size_inv := finv size_as_field_element
    some { size := size
           log_size_of_group := log_size_of_group
           size_as_field_element := size_as_field_element
           size_inv := size_inv
           group_gen := group_gen
           group_gen_inv := finv group_gen
           offset := 1
           offset_inv := 1
           offset_pow_size := 1 }

/-! ### Parameter derivation engine (`src/whir/parameters.rs`)

The `f64` quantities of the source are modelled as exact rationals; the
comparisons performed by the code are order comparisons that the rational
model mirrors exactly.  `SoundnessType` is the three-variant enum of
`crate::parameters` described by the specification. -/

inductive SoundnessType where
  | UniqueDecoding
  | ProvableList
  | ConjectureList
deriving DecidableEq

/-- `WhirConfig::list_size_bits`: regime-dependent list-size bound. -/
def list_size_bits (soundness_type : SoundnessType) (num_variables log_inv_rate : Nat)
    (log_eta : ℚ) : ℚ :=
  match soundness_type with
  | .ConjectureList => ((num_variables + log_inv_rate : Nat) : ℚ) - log_eta
  | .ProvableList => (log_inv_rate : ℚ) / 2 - (1 + log_eta)
  | .UniqueDecoding => 0

/-- `WhirConfig::rbr_ood_sample`: bits of round-by-round soundness contributed
by `ood_samples` out-of-domain samples. -/
def rbr_ood_sample (soundness_type : SoundnessType) (num_variables log_inv_rate : Nat)
    (log_eta : ℚ) (field_size_bits ood_samples : Nat) : ℚ :=
  let lsb := list_size_bits soundness_type num_variables log_inv_rate log_eta
  ((ood_samples * field_size_bits : Nat) : ℚ) + 1
    - (2 * lsb + ((num_variables * ood_samples : Nat) : ℚ))

/-- `WhirConfig::ood_samples`: `0` under unique decoding, otherwise the first
count in the Rust range `1..64` whose round-by-round error meets the security
level.  The `unwrap_or_else(panic)` of the source is modelled by `none`. -/
def ood_samples (security_level : Nat) (soundness_type : SoundnessType)
    (num_variables log_inv_rate : Nat) (log_eta : ℚ) (field_size_bits : Nat) : Option Nat :=
  match soundness_type with
  | .UniqueDecoding => some 0
  | _ => (List.range' 1 63).find? fun c =>
      decide ((security_level : ℚ) ≤
        rbr_ood_sample soundness_type num_variables log_inv_rate log_eta field_size_bits c)

/-- Per-round parameters derived by the engine (`RoundConfig`). -/
structure RoundConfig where
  pow_bits : ℚ
  folding_pow_bits : ℚ
  num_queries : Nat
  ood_samples : Nat
  log_inv_rate : Nat

/-- The scalar configuration data of `WhirConfig` that `check_pow_bits` and
`n_rounds` read.  The opaque capability fields of the source (domain, folding
schedule, Merkle hash and compressor, PoW strategy marker) are configuration
values never inspected by these functions and are omitted from the model. -/
structure WhirConfig where
  soundness_type : SoundnessType
  security_level : Nat
  max_pow_bits : Nat
  committment_ood_samples : Nat
  initial_statement : Bool
  starting_log_inv_rate : Nat
  starting_folding_pow_bits : ℚ
  round_parameters : List RoundConfig
  final_queries : Nat
  final_pow_bits : ℚ
  final_log_inv_rate : Nat
  final_sumcheck_rounds : Nat
  final_folding_pow_bits : ℚ

/-- `WhirConfig::check_pow_bits`: every derived proof-of-work quantity must be
at most the configured cap; nothing is clamped or mutated. -/
def WhirConfig.check_pow_bits (c : WhirConfig) : Bool :=
  let max_bits : ℚ := (c.max_pow_bits : ℚ)
  if c.starting_folding_pow_bits > max_bits ∨ c.final_pow_bits > max_bits
      ∨ c.final_folding_pow_bits > max_bits then
    false
  else
    c.round_parameters.all fun r =>
      decide (r.pow_bits ≤ max_bits) && decide (r.folding_pow_bits ≤ max_bits)

/-! ### Fiat-Shamir domain-separator builders (`src/fs_utils.rs`)

The `DomainSeparator` type itself lives in `crate::fiat_shamir`, outside the
covered sources.  Modelled from the spec: an append-only pattern of labeled
challenge/response/proof-of-work slots; `challenge_scalars`, `add_scalars`
and `challenge_pow` are the three primitive operations, each appending one
labeled entry and never truncating or reordering existing content. -/

inductive DomainSeparatorOp where
  | challengeScalars (count : Nat) (label : String)
  | addScalars (count : Nat) (label : String)
  | challengePow (label : String)
deriving DecidableEq

/-- Modelled from the spec: the transcript-pattern builder, reduced to its
serialized pattern (a list of labeled entries). -/
structure DomainSeparator where
  pattern : List DomainSeparatorOp
deriving DecidableEq

/-- Modelled from the spec: append a challenge slot of `count` field elements. -/
def DomainSeparator.challenge_scalars (ds : DomainSeparator) (count : Nat)
    (label : String) : DomainSeparator :=
  ⟨ds.pattern ++ [.challengeScalars count label]⟩

/-- Modelled from the spec: append a response slot of `count` field elements. -/
def DomainSeparator.add_scalars (ds : DomainSeparator) (count : Nat)
    (label : String) : DomainSeparator :=
  ⟨ds.pattern ++ [.addScalars count label]⟩

/-- Modelled from the spec: append a proof-of-work challenge slot. -/
def DomainSeparator.challenge_pow (ds : DomainSeparator) (label : String) : DomainSeparator :=
  ⟨ds.pattern ++ [.challengePow label]⟩

/-- `OODDomainSeparator::add_ood` from `src/fs_utils.rs`. -/
def DomainSeparator.add_ood (ds : DomainSeparator) (num_samples : Nat) : DomainSeparator :=
  if num_samples > 0 then
    (ds.challenge_scalars num_samples ("ood_query")).add_scalars num_samples ("ood_ans")
  else ds

/-- `WhirPoWDomainSeparator::pow` from `src/fs_utils.rs`; the `f64` difficulty
is modelled as a rational. -/
def DomainSeparator.pow (ds : DomainSeparator) (bits : ℚ) : DomainSeparator :=
  if bits > 0 then ds.challenge_pow ("pow_queries") else ds

/-! ### Single-round sumcheck prover (`src/sumcheck/prover_single.rs`)

The polynomial and weight tables are lists of elements of a commutative ring
`R`, modelling the field-generic Rust code.  The helper types
(`EvaluationsList`, `CoefficientList`, `MultilinearPoint`, `Statement`,
`Weights`, `eval_eq`) live outside the covered sources and are modelled from
the spec where noted. -/

variable {R : Type} [CommRing R]

/-- Prover state: evaluation table of the polynomial, evaluation table of the
aggregated constraint weights, and the accumulated claimed sum. -/
structure SumcheckSingle (R : Type) where
  evaluation_of_p : List R
  weights : List R
  sum : R

/-- Number of variables of the state: the spec invariant for evaluation lists
is `2 ^ n` entries with `n = log2(length)`. -/
def SumcheckSingle.num_variables (s : SumcheckSingle R) : Nat :=
  log2n s.evaluation_of_p.length

/-- Modelled from the spec: the evaluation table of the equality indicator
`eq_z(X) = prod_i (X_i z_i + (1 - X_i)(1 - z_i))` over the Boolean hypercube,
the first coordinate of `z` being the most significant index bit. -/
def eqTable : List R → List R
  | [] => [1]
  | z :: zs => ((eqTable zs).map fun t => (1 - z) * t) ++ ((eqTable zs).map fun t => z * t)

/-- Modelled from the spec: `crate::utils::eval_eq` accumulates
`scalar * eq_z(beta)` into `out[beta]` for every hypercube point `beta`. -/
def eval_eq (z : List R) (out : List R) (scalar : R) : List R :=
  List.zipWith (· + ·) out ((eqTable z).map fun t => scalar * t)

/-- `SumcheckSingle::add_new_equality`: the two length assertions of the
source are modelled by returning `none`; they run before any mutation, so no
partial update is observable on the error path. -/
def SumcheckSingle.add_new_equality (s : SumcheckSingle R) (points : List (List R))
    (combination_randomness evaluations : List R) : Option (SumcheckSingle R) :=
  if combination_randomness.length = points.length
      ∧ combination_randomness.length = evaluations.length then
    some { evaluation_of_p := s.evaluation_of_p
           weights := (points.zip combination_randomness).foldl
             (fun acc pr => eval_eq pr.1 acc pr.2) s.weights
           sum := (combination_randomness.zip evaluations).foldl
             (fun acc re => acc + re.1 * re.2) s.sum }
  else none

/-- Rust `chunks_exact(2)`: disjoint adjacent pairs, dropping a leftover. -/
def chunkPairs : List R → List (R × R)
  | a :: b :: rest => (a, b) :: chunkPairs rest
  | _ => []

/-- The per-pair contributions of `compute_sumcheck_polynomial`: for each
adjacent pair, the product of the constant coefficients and the product of
the linear coefficients of the two interpolated linear functions. -/
def pairContributions (p w : List R) : List (R × R) :=
  ((chunkPairs p).zip (chunkPairs w)).map fun q =>
    (q.1.1 * q.2.1, (q.1.2 - q.1.1) * (q.2.2 - q.2.1))

/-- The quadratic sumcheck polynomial, stored as its evaluations at `{0,1,2}`
together with the number of variables reduced (always `1`). -/
structure SumcheckPolynomial (R : Type) where
  evaluations : List R
  num_variables : Nat
deriving DecidableEq

/-- `SumcheckSingle::compute_sumcheck_polynomial`: the `assert!` on the number
of variables is modelled by returning `none`.  The parallel reduction of the
source is modelled as a left fold over the pair contributions; its
order-independence is proved separately. -/
def SumcheckSingle.compute_sumcheck_polynomial (s : SumcheckSingle R) :
    Option (SumcheckPolynomial R) :=
  if 1 ≤ s.num_variables then
    let c := (pairContributions s.evaluation_of_p s.weights).foldl
      (fun x y => (x.1 + y.1, x.2 + y.2)) (0, 0)
    let c1 := s.sum - 2 * c.1 - c.2
    let eval_0 := c.1
    let eval_1 := c.1 + c1 + c.2
    let eval_2 := eval_1 + c1 + c.2 + 2 * c.2
    some ⟨[eval_0, eval_1, eval_2], 1⟩
  else none

/-- Modelled from the spec: a constraint is either a point-evaluation
constraint or a generic linear weighting over the hypercube. -/
inductive Weights (R : Type) where
  | evaluation (point : List R)
  | linear (weight : List R)

/-- Modelled from the spec: accumulate one constraint, scaled by `coeff`,
into the aggregated weight table. -/
def Weights.accumulate : Weights R → List R → R → List R
  | .evaluation point, acc, coeff => eval_eq point acc coeff
  | .linear weight, acc, coeff => List.zipWith (fun a w => a + coeff * w) acc weight

/-- Modelled from the spec: a list of `(Weights, claimed_value)` constraints
on an `num_variables`-variate multilinear polynomial. -/
structure Statement (R : Type) where
  num_variables : Nat
  constraints : List (Weights R × R)

/-- Modelled from the spec: fold every constraint into one aggregated weight
table and one aggregated sum, the `i`-th constraint scaled by the `i`-th
power of the combination coefficient; with zero constraints the result is the
all-zero table and the zero sum. -/
def Statement.combine (st : Statement R) (challenge : R) : List R × R :=
  (st.constraints.zip ((List.range st.constraints.length).map (challenge ^ ·))).foldl
    (fun acc cw => (cw.1.1.accumulate acc.1 cw.2, acc.2 + cw.2 * cw.1.2))
    (List.replicate (2 ^ st.num_variables) 0, 0)

/-- Modelled from the spec: the coefficient-to-evaluation basis change (the
Walsh/wavelet transform) for a table of `2 ^ n` monomial coefficients. -/
def wavelet : Nat → List R → List R
  | 0, l => l
  | n + 1, l =>
    let lo := l.take (2 ^ n)
    let hi := l.drop (2 ^ n)
    wavelet n lo ++ List.zipWith (· + ·) (wavelet n lo) (wavelet n hi)

/-- `SumcheckSingle::new`: convert the coefficients to evaluation form and
combine the statement's constraints with the initial coefficient. -/
def SumcheckSingle.new (coeffs : List R) (statement : Statement R)
    (combination_randomness : R) : SumcheckSingle R :=
  let ws := statement.combine combination_randomness
  { evaluation_of_p := wavelet (log2n coeffs.length) coeffs
    weights := ws.1
    sum := ws.2 }

/-! ### Helper lemmas: bit arithmetic -/

lemma nextPowTwoAux_pow (fuel : Nat) : ∀ n : Nat, ∃ k, nextPowTwoAux fuel n = 2 ^ k := by
  induction fuel with
  | zero => exact fun n => ⟨0, rfl⟩
  | succ f ih =>
    intro n
    by_cases h : n ≤ 1
    · exact ⟨0, by simp [nextPowTwoAux, h]⟩
    · obtain ⟨k, hk⟩ := ih ((n + 1) / 2)
      exact ⟨k + 1, by simp [nextPowTwoAux, h, hk, pow_succ, Nat.mul_comm]⟩

/-- The rounded-up size is always a power of two. -/
lemma nextPowerOfTwo_pow (n : Nat) : ∃ k, nextPowerOfTwo n = 2 ^ k :=
  nextPowTwoAux_pow n n

lemma trailingZerosAux_two_pow : ∀ (k fuel : Nat), k < fuel → trailingZerosAux fuel (2 ^ k) = k := by
  intro k
  induction k with
  | zero =>
    intro fuel hf
    obtain ⟨f, rfl⟩ := Nat.exists_eq_succ_of_ne_zero (Nat.pos_iff_ne_zero.mp hf)
    simp [trailingZerosAux]
  | succ k ih =>
    intro fuel hf
    obtain ⟨f, rfl⟩ := Nat.exists_eq_succ_of_ne_zero (Nat.pos_iff_ne_zero.mp (Nat.lt_of_le_of_lt (Nat.zero_le _) hf))
    have h2 : (2 : Nat) ^ (k + 1) % 2 = 0 := by
      simp [pow_succ, Nat.mul_mod_left]
    have hne : (2 : Nat) ^ (k + 1) ≠ 0 := Nat.pos_iff_ne_zero.mp (Nat.pos_pow_of_pos _ (by decide))
    have hdiv : (2 : Nat) ^ (k + 1) / 2 = 2 ^ k := by
      rw [pow_succ, Nat.mul_div_cancel _ (by decide : (0:Nat) < 2)]
    simp only [trailingZerosAux, h2, hne, ne_eq, not_false_eq_true, and_self, if_true, hdiv]
    rw [ih f (Nat.lt_of_succ_lt_succ hf)]

lemma trailingZeros_two_pow (k : Nat) : trailingZeros (2 ^ k) = k :=
  trailingZerosAux_two_pow k (2 ^ k) (Nat.lt_two_pow k)

lemma log2Aux_two_pow : ∀ (k fuel : Nat), k < fuel → log2Aux fuel (2 ^ k) = k := by
  intro k
  induction k with
  | zero =>
    intro fuel hf
    obtain ⟨f, rfl⟩ := Nat.exists_eq_succ_of_ne_zero (Nat.pos_iff_ne_zero.mp hf)
    simp [log2Aux]
  | succ k ih =>
    intro fuel hf
    obtain ⟨f, rfl⟩ := Nat.exists_eq_succ_of_ne_zero (Nat.pos_iff_ne_zero.mp (Nat.lt_of_le_of_lt (Nat.zero_le _) hf))
    have h2 : 2 ≤ (2 : Nat) ^ (k + 1) := by
      calc (2 : Nat) = 2 ^ 1 := rfl
      _ ≤ 2 ^ (k + 1) := Nat.pow_le_pow_right (by decide) (by omega)
    have hdiv : (2 : Nat) ^ (k + 1) / 2 = 2 ^ k := by
      rw [pow_succ, Nat.mul_div_cancel _ (by decide : (0:Nat) < 2)]
    simp only [log2Aux, h2, if_true, hdiv]
    rw [ih f (Nat.lt_of_succ_lt_succ hf)]

lemma log2n_two_pow (k : Nat) : log2n (2 ^ k) = k :=
  log2Aux_two_pow k (2 ^ k) (Nat.lt_two_pow k)

/-- Closed form of `Radix2EvaluationDomain.new` once the rounded size is
written as a power of two. -/
lemma Radix2EvaluationDomain.new_eq (num_coeffs k : Nat)
    (hk : nextPowerOfTwo num_coeffs = 2 ^ k) :
    Radix2EvaluationDomain.new num_coeffs =
      if TWO_ADICITY < k then none
      else some { size := 2 ^ k
                  log_size_of_group := k
                  size_as_field_element := 2 ^ k % babyBearP
                  size_inv := finv (2 ^ k % babyBearP)
                  group_gen := two_adic_generator k
                  group_gen_inv := finv (two_adic_generator k)
                  offset := 1
                  offset_inv := 1
                  offset_pow_size := 1 } := by
  simp only [Radix2EvaluationDomain.new, hk, trailingZeros_two_pow]

/-! ### Claims about the evaluation domain -/

/-- C4: for every successfully constructed domain, the stored generator `g`
satisfies `g ^ n = 1` and (for `n >= 2`) `g ^ (n / 2) /= 1`, so `g` has order
exactly `n`; and the stored field representation of the size times the stored
inverse is the multiplicative identity. -/
theorem domain_generator_order (num_coeffs : Nat) (d : Radix2EvaluationDomain)
    (h : Radix2EvaluationDomain.new num_coeffs = some d) :
    powMod babyBearP d.group_gen d.size = 1
    ∧ (2 ≤ d.size → powMod babyBearP d.group_gen (d.size / 2) ≠ 1)
    ∧ d.size_as_field_element * d.size_inv % babyBearP = 1 := by
  obtain ⟨k, hk⟩ := nextPowerOfTwo_pow num_coeffs
  rw [Radix2EvaluationDomain.new_eq num_coeffs k hk] at h
  by_cases hlt : TWO_ADICITY < k
  · rw [if_pos hlt] at h; cases h
  · rw [if_neg hlt] at h
    have key : ∀ j : Nat, j ≤ TWO_ADICITY →
        powMod babyBearP (two_adic_generator j) (2 ^ j) = 1
        ∧ (2 ≤ 2 ^ j → powMod babyBearP (two_adic_generator j) (2 ^ j / 2) ≠ 1)
        ∧ 2 ^ j % babyBearP * finv (2 ^ j % babyBearP) % babyBearP = 1 := by decide
    obtain rfl := Option.some.inj h
    exact key k (Nat.le_of_not_lt hlt)

/-- C4 witness: the theorem applied to the concrete domain of size 8. -/
theorem domain_generator_order_witness :
    Radix2EvaluationDomain.new 8 =
      some ⟨8, 3, 8, finv 8, two_adic_generator 3, finv (two_adic_generator 3), 1, 1, 1⟩
    ∧ (powMod babyBearP (two_adic_generator 3) 8 = 1
       ∧ (2 ≤ 8 → powMod babyBearP (two_adic_generator 3) (8 / 2) ≠ 1)
       ∧ 8 * finv 8 % babyBearP = 1) :=
  ⟨by decide,
   domain_generator_order 8
     ⟨8, 3, 8, finv 8, two_adic_generator 3, finv (two_adic_generator 3), 1, 1, 1⟩
     (by decide)⟩

/-- C5: construction fails exactly when the log of the rounded-up size
exceeds the field's two-adicity; on success the domain stores the rounded-up
size and its log. -/
theorem domain_new_none_iff (num_coeffs : Nat) :
    (Radix2EvaluationDomain.new num_coeffs = none ↔
      TWO_ADICITY < log2n (nextPowerOfTwo num_coeffs))
    ∧ ∀ d, Radix2EvaluationDomain.new num_coeffs = some d →
        d.size = nextPowerOfTwo num_coeffs
        ∧ d.log_size_of_group = log2n (nextPowerOfTwo num_coeffs) := by
  obtain ⟨k, hk⟩ := nextPowerOfTwo_pow num_coeffs
  have hlg : log2n (nextPowerOfTwo num_coeffs) = k := by rw [hk, log2n_two_pow]
  rw [Radix2EvaluationDomain.new_eq num_coeffs k hk, hlg]
  by_cases hlt : TWO_ADICITY < k
  · rw [if_pos hlt]
    constructor
    · constructor
      · intro _; exact hlt
      · intro _; rfl
    · intro d hd; cases hd
  · rw [if_neg hlt]
    constructor
    · constructor
      · intro hc; cases hc
      · intro hc; exact absurd hc hlt
    · intro d hd
      obtain rfl := Option.some.inj hd
      exact ⟨hk.symm, rfl⟩

/-- C5 witness: the theorem applied at the concrete input 8. -/
theorem domain_new_none_iff_witness :
    (Radix2EvaluationDomain.new 8 = none ↔ TWO_ADICITY < log2n (nextPowerOfTwo 8))
    ∧ ∀ d, Radix2EvaluationDomain.new 8 = some d →
        d.size = nextPowerOfTwo 8 ∧ d.log_size_of_group = log2n (nextPowerOfTwo 8) :=
  domain_new_none_iff 8

/-- C10: requesting a domain for 0 (or 1) coefficients succeeds with the
size-1 domain: log 0, generator the order-1 two-adic generator (the
multiplicative identity), and all offset fields the multiplicative
identity. -/
theorem domain_new_zero_and_one :
    Radix2EvaluationDomain.new 0 = some ⟨1, 0, 1, 1, 1, 1, 1, 1, 1⟩
    ∧ Radix2EvaluationDomain.new 1 = some ⟨1, 0, 1, 1, 1, 1, 1, 1, 1⟩
    ∧ two_adic_generator 0 = 1 := by
  refine ⟨by decide, by decide, by decide⟩

/-! ### Helper lemmas: first-match search over an ascending range -/

lemma find?_range'_eq_some (p : Nat → Bool) :
    ∀ (n s k : Nat), ((List.range' s n).find? p = some k ↔
      (s ≤ k ∧ k < s + n ∧ p k = true ∧ ∀ j, s ≤ j → j < k → p j = false)) := by
  intro n
  induction n with
  | zero =>
    intro s k
    constructor
    · intro h; cases h
    · intro h; omega
  | succ n ih =>
    intro s k
    rw [List.range'_succ]
    cases hps : p s with
    | true =>
      rw [List.find?_cons_of_pos _ hps]
      constructor
      · intro h
        obtain rfl := Option.some.inj h
        refine ⟨Nat.le_refl _, by omega, hps, fun j h1 h2 => absurd (Nat.lt_of_le_of_lt h1 h2) (Nat.lt_irrefl _)⟩
      · intro h
        obtain ⟨h1, _, _, hmin⟩ := h
        rcases Nat.eq_or_lt_of_le h1 with rfl | hlt
        · rfl
        · have hfalse := hmin s (Nat.le_refl s) hlt
          rw [hps] at hfalse; cases hfalse
    | false =>
      have hneg : ¬ p s := by simp [hps]
      rw [List.find?_cons_of_neg _ hneg]
      rw [ih (s + 1) k]
      constructor
      · intro h
        obtain ⟨h1, h2, h3, hmin⟩ := h
        refine ⟨by omega, by omega, h3, fun j hj1 hj2 => ?_⟩
        rcases Nat.eq_or_lt_of_le hj1 with rfl | hlt
        · exact hps
        · exact hmin j hlt hj2
      · intro h
        obtain ⟨h1, h2, h3, hmin⟩ := h
        have hks : k ≠ s := by
          intro hs; rw [hs] at h3; rw [hps] at h3; cases h3
        exact ⟨by omega, by omega, h3, fun j hj1 hj2 => hmin j (by omega) hj2⟩

lemma find?_range'_eq_none (p : Nat → Bool) (s n : Nat) :
    ((List.range' s n).find? p = none ↔ ∀ j, s ≤ j → j < s + n → p j = false) := by
  rw [List.find?_eq_none]
  constructor
  · intro h j h1 h2
    have hmem : j ∈ List.range' s n := by
      rw [List.mem_range']
      exact ⟨j - s, by omega, by omega⟩
    have := h j hmem
    simpa using this
  · intro h x hx
    rw [List.mem_range'] at hx
    obtain ⟨i, hi, rfl⟩ := hx
    simp only [Bool.not_eq_true]
    exact h (s + 1 * i) (by omega) (by omega)

/-! ### Claims about the parameter-derivation engine -/

/-- C6: `ood_samples` returns 0 under unique decoding; in the list-decoding
regimes it returns the smallest count in the Rust range `1..64` whose
round-by-round out-of-domain soundness meets the security level, and fails
(models a panic, never a silent fallback or a value outside the range) when
no such count exists. -/
theorem ood_samples_spec (security_level : Nat) (soundness_type : SoundnessType)
    (num_variables log_inv_rate : Nat) (log_eta : ℚ) (field_size_bits : Nat) :
    (soundness_type = SoundnessType.UniqueDecoding →
      ood_samples security_level soundness_type num_variables log_inv_rate log_eta
        field_size_bits = some 0)
    ∧ (soundness_type ≠ SoundnessType.UniqueDecoding →
      (∀ k, ood_samples security_level soundness_type num_variables log_inv_rate log_eta
          field_size_bits = some k ↔
        (1 ≤ k ∧ k < 64
         ∧ (security_level : ℚ) ≤ rbr_ood_sample soundness_type num_variables log_inv_rate
             log_eta field_size_bits k
         ∧ ∀ j, 1 ≤ j → j < k →
             ¬ (security_level : ℚ) ≤ rbr_ood_sample soundness_type num_variables
                 log_inv_rate log_eta field_size_bits j))
      ∧ (ood_samples security_level soundness_type num_variables log_inv_rate log_eta
          field_size_bits = none ↔
        ∀ k, 1 ≤ k → k < 64 →
          ¬ (security_level : ℚ) ≤ rbr_ood_sample soundness_type num_variables log_inv_rate
              log_eta field_size_bits k)) := by
  constructor
  · intro h; rw [h]; rfl
  · intro hne
    have hood : ood_samples security_level soundness_type num_variables log_inv_rate log_eta
        field_size_bits = (List.range' 1 63).find? fun c =>
          decide ((security_level : ℚ) ≤ rbr_ood_sample soundness_type num_variables
            log_inv_rate log_eta field_size_bits c) := by
      cases soundness_type with
      | UniqueDecoding => exact absurd rfl hne
      | ProvableList => rfl
      | ConjectureList => rfl
    constructor
    · intro k
      rw [hood, find?_range'_eq_some]
      simp only [decide_eq_true_eq, decide_eq_false_iff_not, Nat.reduceAdd]
    · rw [hood, find?_range'_eq_none]
      simp only [decide_eq_false_iff_not, Nat.reduceAdd]

/-- C6 witness: the theorem applied at a concrete unique-decoding input. -/
theorem ood_samples_spec_witness :
    ood_samples 100 SoundnessType.UniqueDecoding 10 3 0 256 = some 0 :=
  (ood_samples_spec 100 SoundnessType.UniqueDecoding 10 3 0 256).1 rfl

/-- C7: `check_pow_bits` is true exactly when every derived proof-of-work
quantity (starting folding, final, final folding, and both fields of every
round) is at most the cap, the comparison being boundary-inclusive; the
function reads the configuration and clamps or mutates nothing. -/
theorem check_pow_bits_iff (c : WhirConfig) :
    c.check_pow_bits = true ↔
      (c.starting_folding_pow_bits ≤ (c.max_pow_bits : ℚ)
       ∧ c.final_pow_bits ≤ (c.max_pow_bits : ℚ)
       ∧ c.final_folding_pow_bits ≤ (c.max_pow_bits : ℚ)
       ∧ ∀ r ∈ c.round_parameters,
           r.pow_bits ≤ (c.max_pow_bits : ℚ) ∧ r.folding_pow_bits ≤ (c.max_pow_bits : ℚ)) := by
  simp only [WhirConfig.check_pow_bits]
  split_ifs with h
  · simp only [Bool.false_eq_true, false_iff]
    intro hc
    obtain ⟨h1, h2, h3, _⟩ := hc
    rcases h with h | h | h
    · exact absurd h1 (not_le.mpr h)
    · exact absurd h2 (not_le.mpr h)
    · exact absurd h3 (not_le.mpr h)
  · push_neg at h
    obtain ⟨h1, h2, h3⟩ := h
    simp only [List.all_eq_true, Bool.and_eq_true, decide_eq_true_eq]
    constructor
    · intro hall
      exact ⟨h1, h2, h3, fun r hr => hall r hr⟩
    · intro hc r hr
      exact hc.2.2.2 r hr

/-! ### Claims about the domain-separator builders -/

/-- C8: `add_ood 0` and `pow` with a non-positive difficulty return the
separator with its pattern identical to the input; `add_ood k` with positive
`k` appends exactly a `k`-element challenge slot labeled "ood_query" followed
by a `k`-element response slot labeled "ood_ans"; `pow` with positive
difficulty appends exactly one proof-of-work challenge labeled "pow_queries";
in every case the pre-existing pattern is a prefix of the result. -/
theorem add_ood_pow_append (ds : DomainSeparator) (k : Nat) (bits : ℚ) :
    ds.add_ood 0 = ds
    ∧ (bits ≤ 0 → ds.pow bits = ds)
    ∧ (0 < k → (ds.add_ood k).pattern =
        ds.pattern ++ [.challengeScalars k ("ood_query"), .addScalars k ("ood_ans")])
    ∧ (0 < bits → (ds.pow bits).pattern = ds.pattern ++ [.challengePow ("pow_queries")])
    ∧ (∃ t, (ds.add_ood k).pattern = ds.pattern ++ t)
    ∧ (∃ t, (ds.pow bits).pattern = ds.pattern ++ t) := by
  refine ⟨rfl, ?_, ?_, ?_, ?_, ?_⟩
  · intro hb
    rw [DomainSeparator.pow, if_neg (not_lt.mpr hb)]
  · intro hk
    rw [DomainSeparator.add_ood, if_pos hk]
    simp [DomainSeparator.challenge_scalars, DomainSeparator.add_scalars]
  · intro hb
    rw [DomainSeparator.pow, if_pos hb]
    simp [DomainSeparator.challenge_pow]
  · rw [DomainSeparator.add_ood]
    split_ifs with hk
    · exact ⟨[.challengeScalars k ("ood_query"), .addScalars k ("ood_ans")],
        by simp [DomainSeparator.challenge_scalars, DomainSeparator.add_scalars]⟩
    · exact ⟨[], by simp⟩
  · rw [DomainSeparator.pow]
    split_ifs with hb
    · exact ⟨[.challengePow ("pow_queries")], by simp [DomainSeparator.challenge_pow]⟩
    · exact ⟨[], by simp⟩

/-- C8 witness: the theorem applied to the empty separator with two samples
and difficulty 1. -/
theorem add_ood_pow_append_witness :
    DomainSeparator.add_ood ⟨[]⟩ 0 = (⟨[]⟩ : DomainSeparator)
    ∧ ((1 : ℚ) ≤ 0 → DomainSeparator.pow ⟨[]⟩ 1 = (⟨[]⟩ : DomainSeparator))
    ∧ (0 < 2 → (DomainSeparator.add_ood ⟨[]⟩ 2).pattern =
        ([] : List DomainSeparatorOp)
          ++ [.challengeScalars 2 ("ood_query"), .addScalars 2 ("ood_ans")])
    ∧ ((0 : ℚ) < 1 → (DomainSeparator.pow ⟨[]⟩ 1).pattern =
        ([] : List DomainSeparatorOp) ++ [.challengePow ("pow_queries")])
    ∧ (∃ t, (DomainSeparator.add_ood ⟨[]⟩ 2).pattern = ([] : List DomainSeparatorOp) ++ t)
    ∧ (∃ t, (DomainSeparator.pow ⟨[]⟩ 1).pattern = ([] : List DomainSeparatorOp) ++ t) :=
  add_ood_pow_append ⟨[]⟩ 2 1

/-! ### Claims about the sumcheck preconditions -/

/-- C9: both precondition violations fail loudly rather than producing a
silent default: `add_new_equality` fails exactly when the three slice lengths
are not all equal (the checks run before any update, so no partial state is
observable), and `compute_sumcheck_polynomial` fails exactly on a state with
zero variables. -/
theorem sumcheck_precondition_panics {R : Type} [CommRing R] :
    (∀ (s : SumcheckSingle R) (points : List (List R))
        (combination_randomness evaluations : List R),
      s.add_new_equality points combination_randomness evaluations = none ↔
        ¬ (combination_randomness.length = points.length
           ∧ combination_randomness.length = evaluations.length))
    ∧ (∀ s : SumcheckSingle R,
      s.compute_sumcheck_polynomial = none ↔ s.num_variables = 0) := by
  constructor
  · intro s points combination_randomness evaluations
    rw [SumcheckSingle.add_new_equality]
    split_ifs with h
    · constructor
      · intro hc; cases hc
      · intro hc; exact absurd h hc
    · simp [h]
  · intro s
    rw [SumcheckSingle.compute_sumcheck_polynomial]
    split_ifs with h
    · constructor
      · intro hc; cases hc
      · intro hc; omega
    · constructor
      · intro _; omega
      · intro _; rfl

/-! ### Helper lemmas: folds, chunked pairs and the equality table -/

lemma foldl_pair_add (l : List (R × R)) : ∀ a : R × R,
    l.foldl (fun x y => (x.1 + y.1, x.2 + y.2)) a
      = (a.1 + (l.map Prod.fst).sum, a.2 + (l.map Prod.snd).sum) := by
  induction l with
  | nil => intro a; simp
  | cons h t ih =>
    intro a
    simp only [List.foldl_cons, List.map_cons, List.sum_cons, ih]
    simp [add_assoc]

lemma foldl_add_map {α : Type} (f : α → R) (l : List α) : ∀ a : R,
    l.foldl (fun acc x => acc + f x) a = a + (l.map f).sum := by
  induction l with
  | nil => intro a; simp
  | cons h t ih =>
    intro a
    simp only [List.foldl_cons, List.map_cons, List.sum_cons, ih]
    simp [add_assoc]

lemma sum_map_zip_eq {α β : Type} (g : α × β → R) (da : α) (db : β) :
    ∀ (xs : List α) (ys : List β),
      ((xs.zip ys).map g).sum
        = ∑ i in Finset.range (min xs.length ys.length), g (xs.getD i da, ys.getD i db) := by
  intro xs
  induction xs with
  | nil => intro ys; simp
  | cons x xs ih =>
    intro ys
    cases ys with
    | nil => simp
    | cons y ys =>
      rw [List.zip_cons_cons, List.map_cons, List.sum_cons, ih ys]
      rw [List.length_cons, List.length_cons, Nat.succ_min_succ, Finset.sum_range_succ']
      simp only [List.getD_cons_zero, List.getD_cons_succ]
      rw [add_comm]

omit [CommRing R] in
lemma chunkPairs_length (l : List R) : (chunkPairs l).length = l.length / 2 := by
  induction l using chunkPairs.induct with
  | case1 a b rest ih => simp [chunkPairs, ih]; omega
  | case2 l h =>
    rcases l with _ | ⟨a, _ | ⟨b, rest⟩⟩
    · simp [chunkPairs]
    · simp [chunkPairs]
    · exact absurd rfl (h a b rest)

lemma chunkPairs_getD (l : List R) : ∀ i, i < l.length / 2 →
    (chunkPairs l).getD i (0, 0) = (l.getD (2 * i) 0, l.getD (2 * i + 1) 0) := by
  induction l using chunkPairs.induct with
  | case1 a b rest ih =>
    intro i hi
    cases i with
    | zero => simp [chunkPairs]
    | succ i =>
      have hlen : i < rest.length / 2 := by
        simp only [List.length_cons] at hi; omega
      have e1 : 2 * (i + 1) = 2 * i + 1 + 1 := by omega
      rw [e1]
      simp only [chunkPairs, List.getD_cons_succ]
      exact ih i hlen
  | case2 l h =>
    intro i hi
    rcases l with _ | ⟨a, _ | ⟨b, rest⟩⟩
    · simp only [List.length_nil] at hi; omega
    · simp only [List.length_cons, List.length_nil] at hi; omega
    · exact absurd rfl (h a b rest)

lemma pairContributions_sums (p w : List R) :
    ((pairContributions p w).map Prod.fst).sum
        = ∑ i in Finset.range (min (p.length / 2) (w.length / 2)),
            p.getD (2 * i) 0 * w.getD (2 * i) 0
    ∧ ((pairContributions p w).map Prod.snd).sum
        = ∑ i in Finset.range (min (p.length / 2) (w.length / 2)),
            (p.getD (2 * i + 1) 0 - p.getD (2 * i) 0)
              * (w.getD (2 * i + 1) 0 - w.getD (2 * i) 0) := by
  constructor
  · have hmap : (pairContributions p w).map Prod.fst
        = ((chunkPairs p).zip (chunkPairs w)).map fun q => q.1.1 * q.2.1 := by
      rw [pairContributions, List.map_map]; rfl
    rw [hmap, sum_map_zip_eq _ (0, 0) (0, 0)]
    simp only [chunkPairs_length]
    refine Finset.sum_congr rfl fun i hi => ?_
    rw [Finset.mem_range] at hi
    rw [chunkPairs_getD p i (lt_of_lt_of_le hi (min_le_left _ _)),
        chunkPairs_getD w i (lt_of_lt_of_le hi (min_le_right _ _))]
  · have hmap : (pairContributions p w).map Prod.snd
        = ((chunkPairs p).zip (chunkPairs w)).map fun q => (q.1.2 - q.1.1) * (q.2.2 - q.2.1) := by
      rw [pairContributions, List.map_map]; rfl
    rw [hmap, sum_map_zip_eq _ (0, 0) (0, 0)]
    simp only [chunkPairs_length]
    refine Finset.sum_congr rfl fun i hi => ?_
    rw [Finset.mem_range] at hi
    rw [chunkPairs_getD p i (lt_of_lt_of_le hi (min_le_left _ _)),
        chunkPairs_getD w i (lt_of_lt_of_le hi (min_le_right _ _))]

lemma pairContributions_foldl (p w : List R) :
    (pairContributions p w).foldl (fun x y => (x.1 + y.1, x.2 + y.2)) (0, 0)
      = (∑ i in Finset.range (min (p.length / 2) (w.length / 2)),
           p.getD (2 * i) 0 * w.getD (2 * i) 0,
         ∑ i in Finset.range (min (p.length / 2) (w.length / 2)),
           (p.getD (2 * i + 1) 0 - p.getD (2 * i) 0)
             * (w.getD (2 * i + 1) 0 - w.getD (2 * i) 0)) := by
  rw [foldl_pair_add, (pairContributions_sums p w).1, (pairContributions_sums p w).2]
  simp

lemma eqTable_length (z : List R) : (eqTable z).length = 2 ^ z.length := by
  induction z with
  | nil => rfl
  | cons z zs ih =>
    simp only [eqTable, List.length_append, List.length_map, ih, List.length_cons]
    rw [pow_succ]; omega

lemma getD_replicate_zero (m i : Nat) : (List.replicate m (0 : R)).getD i 0 = 0 := by
  by_cases hi : i < m
  · rw [List.getD_eq_getElem _ _ (by simp [hi])]
    simp
  · rw [List.getD_eq_default _ _ (by simp; omega)]

lemma eval_eq_length (pt w : List R) (r : R) (nv : Nat) (hpt : pt.length = nv)
    (hw : w.length = 2 ^ nv) : (eval_eq pt w r).length = 2 ^ nv := by
  rw [eval_eq, List.length_zipWith, List.length_map, eqTable_length, hpt, hw, Nat.min_self]

lemma eval_eq_getD (pt w : List R) (r : R) (nv : Nat) (hpt : pt.length = nv)
    (hw : w.length = 2 ^ nv) : ∀ j, j < 2 ^ nv →
    (eval_eq pt w r).getD j 0 = w.getD j 0 + r * (eqTable pt).getD j 0 := by
  intro j hj
  have hj1 : j < (eval_eq pt w r).length := by rw [eval_eq_length pt w r nv hpt hw]; exact hj
  have hjw : j < w.length := by rw [hw]; exact hj
  have hje : j < (eqTable pt).length := by rw [eqTable_length, hpt]; exact hj
  rw [List.getD_eq_getElem _ _ hj1, List.getD_eq_getElem _ _ hjw, List.getD_eq_getElem _ _ hje]
  simp only [eval_eq]
  rw [List.getElem_zipWith]
  rw [List.getElem_map]

lemma fold_eval_eq (nv : Nat) : ∀ (pts : List (List R)) (rs : List R) (w : List R),
    w.length = 2 ^ nv → (∀ pt ∈ pts, pt.length = nv) → pts.length = rs.length →
    ((pts.zip rs).foldl (fun acc pr => eval_eq pr.1 acc pr.2) w).length = 2 ^ nv
    ∧ ∀ j, j < 2 ^ nv →
        ((pts.zip rs).foldl (fun acc pr => eval_eq pr.1 acc pr.2) w).getD j 0
          = w.getD j 0 + ∑ i in Finset.range pts.length,
              rs.getD i 0 * (eqTable (pts.getD i [])).getD j 0 := by
  intro pts
  induction pts with
  | nil =>
    intro rs w hw _ _
    refine ⟨hw, fun j hj => by simp⟩
  | cons pt pts ih =>
    intro rs w hw hpt hlen
    cases rs with
    | nil => cases hlen
    | cons r rs =>
      have hptlen : pt.length = nv := hpt pt (List.mem_cons_self pt pts)
      have hw1len : (eval_eq pt w r).length = 2 ^ nv := eval_eq_length pt w r nv hptlen hw
      obtain ⟨ihlen, ihgetD⟩ := ih rs (eval_eq pt w r) hw1len
        (fun q hq => hpt q (List.mem_cons_of_mem _ hq))
        (by simp only [List.length_cons] at hlen; omega)
      constructor
      · simp only [List.zip_cons_cons, List.foldl_cons]
        exact ihlen
      · intro j hj
        simp only [List.zip_cons_cons, List.foldl_cons]
        rw [ihgetD j hj, eval_eq_getD pt w r nv hptlen hw j hj]
        rw [List.length_cons, Finset.sum_range_succ']
        simp only [List.getD_cons_zero, List.getD_cons_succ]
        ring

lemma wavelet_length : ∀ (n : Nat) (l : List R), l.length = 2 ^ n →
    (wavelet n l).length = 2 ^ n := by
  intro n
  induction n with
  | zero => intro l h; exact h
  | succ n ih =>
    intro l h
    have hle : 2 ^ n ≤ l.length := by rw [h, pow_succ]; omega
    have hlo : (l.take (2 ^ n)).length = 2 ^ n := by
      rw [List.length_take]; omega
    have hhi : (l.drop (2 ^ n)).length = 2 ^ n := by
      rw [List.length_drop, h, pow_succ]; omega
    simp only [wavelet, List.length_append, List.length_zipWith, ih _ hlo, ih _ hhi]
    rw [Nat.min_self, pow_succ]; omega

/-- Core characterization of `compute_sumcheck_polynomial` on a state whose
two tables have `2 ^ n` entries: the evaluations at 0, 1, 2 are determined by
the two quadratic coefficients `c0`, `c2` and the stored sum. -/
lemma compute_sumcheck_polynomial_formula (s : SumcheckSingle R) (n : Nat) (hn : 1 ≤ n)
    (hp : s.evaluation_of_p.length = 2 ^ n) (hw : s.weights.length = 2 ^ n)
    (c0 c2 : R)
    (hc0 : c0 = ∑ i in Finset.range (2 ^ (n - 1)),
        s.evaluation_of_p.getD (2 * i) 0 * s.weights.getD (2 * i) 0)
    (hc2 : c2 = ∑ i in Finset.range (2 ^ (n - 1)),
        (s.evaluation_of_p.getD (2 * i + 1) 0 - s.evaluation_of_p.getD (2 * i) 0)
          * (s.weights.getD (2 * i + 1) 0 - s.weights.getD (2 * i) 0)) :
    s.compute_sumcheck_polynomial =
      some ⟨[c0, c0 + (s.sum - 2 * c0 - c2) + c2,
             c0 + (s.sum - 2 * c0 - c2) + c2 + (s.sum - 2 * c0 - c2) + c2 + 2 * c2], 1⟩ := by
  subst hc0
  subst hc2
  have hnv : s.num_variables = n := by
    rw [SumcheckSingle.num_variables, hp, log2n_two_pow]
  have hpow : (2 : Nat) ^ n / 2 = 2 ^ (n - 1) := by
    obtain ⟨k, rfl⟩ : ∃ k, n = k + 1 := ⟨n - 1, by omega⟩
    rw [pow_succ, Nat.mul_div_cancel _ (by decide : (0 : Nat) < 2)]
    simp
  have hmin : min (s.evaluation_of_p.length / 2) (s.weights.length / 2) = 2 ^ (n - 1) := by
    rw [hp, hw, hpow, Nat.min_self]
  rw [SumcheckSingle.compute_sumcheck_polynomial]
  split_ifs with h
  · simp only [pairContributions_foldl, hmin]
  · rw [hnv] at h
    exact absurd hn h

/-! ### Claims about the sumcheck round computation -/

/-- C1: on a state with at least one variable and `2 ^ n`-entry tables, the
round polynomial's evaluations at 0, 1, 2 are exactly those obtained from
`c0` (the pairwise sum of products of even-index entries), `c2` (the pairwise
sum of products of the slopes), and `c1 = sum - 2*c0 - c2`; and the pair
reduction yields the same result on any reordering of the pair
contributions. -/
theorem compute_sumcheck_polynomial_spec (s : SumcheckSingle R) (n : Nat) (hn : 1 ≤ n)
    (hp : s.evaluation_of_p.length = 2 ^ n) (hw : s.weights.length = 2 ^ n) :
    let m := 2 ^ (n - 1)
    let c0 := ∑ i in Finset.range m,
        s.evaluation_of_p.getD (2 * i) 0 * s.weights.getD (2 * i) 0
    let c2 := ∑ i in Finset.range m,
        (s.evaluation_of_p.getD (2 * i + 1) 0 - s.evaluation_of_p.getD (2 * i) 0)
          * (s.weights.getD (2 * i + 1) 0 - s.weights.getD (2 * i) 0)
    let c1 := s.sum - 2 * c0 - c2
    s.compute_sumcheck_polynomial =
        some ⟨[c0, c0 + c1 + c2, c0 + c1 + c2 + c1 + c2 + 2 * c2], 1⟩
      ∧ ∀ l : List (R × R), l.Perm (pairContributions s.evaluation_of_p s.weights) →
          l.foldl (fun x y => (x.1 + y.1, x.2 + y.2)) (0, 0) = (c0, c2) := by
  intro m c0 c2 c1
  have hpow : (2 : Nat) ^ n / 2 = 2 ^ (n - 1) := by
    obtain ⟨k, rfl⟩ : ∃ k, n = k + 1 := ⟨n - 1, by omega⟩
    rw [pow_succ, Nat.mul_div_cancel _ (by decide : (0 : Nat) < 2)]
    simp
  have hmin : min (s.evaluation_of_p.length / 2) (s.weights.length / 2) = 2 ^ (n - 1) := by
    rw [hp, hw, hpow, Nat.min_self]
  constructor
  · exact compute_sumcheck_polynomial_formula s n hn hp hw c0 c2 rfl rfl
  · intro l hl
    rw [foldl_pair_add]
    rw [(hl.map Prod.fst).sum_eq, (hl.map Prod.snd).sum_eq]
    rw [(pairContributions_sums s.evaluation_of_p s.weights).1,
        (pairContributions_sums s.evaluation_of_p s.weights).2, hmin]
    simp only [zero_add]

/-- C1 witness: the theorem applied to the one-variable state with
`p = (1, 2)`, `w = (3, 4)`, `sum = 5` over the integers. -/
theorem compute_sumcheck_polynomial_spec_witness :
    ((1 : Nat) ≤ 1
     ∧ (SumcheckSingle.mk [(1 : ℤ), 2] [3, 4] 5).evaluation_of_p.length = 2 ^ 1
     ∧ (SumcheckSingle.mk [(1 : ℤ), 2] [3, 4] 5).weights.length = 2 ^ 1)
    ∧ (SumcheckSingle.mk [(1 : ℤ), 2] [3, 4] 5).compute_sumcheck_polynomial
        = some ⟨[3, 2, 3], 1⟩ := by
  have h := compute_sumcheck_polynomial_spec (SumcheckSingle.mk [(1 : ℤ), 2] [3, 4] 5) 1
    (le_refl 1) (by decide) (by decide)
  refine ⟨⟨le_refl 1, by decide, by decide⟩, ?_⟩
  rw [h.1]
  decide

/-- C2: with equal-length slices, `add_new_equality` succeeds, leaves the
polynomial table untouched, adds the inner product of the randomness and the
claimed evaluations to the sum, and adds to the weight table, pointwise over
the hypercube, the randomness-weighted equality tables of the points. -/
theorem add_new_equality_spec (s : SumcheckSingle R) (points : List (List R))
    (combination_randomness evaluations : List R) (m nv : Nat)
    (hp : points.length = m) (hr : combination_randomness.length = m)
    (he : evaluations.length = m) (hpt : ∀ pt ∈ points, pt.length = nv)
    (hw : s.weights.length = 2 ^ nv) :
    ∃ s2, s.add_new_equality points combination_randomness evaluations = some s2
      ∧ s2.evaluation_of_p = s.evaluation_of_p
      ∧ s2.sum = s.sum + ∑ i in Finset.range m,
          combination_randomness.getD i 0 * evaluations.getD i 0
      ∧ s2.weights.length = 2 ^ nv
      ∧ ∀ j, j < 2 ^ nv →
          s2.weights.getD j 0 = s.weights.getD j 0
            + ∑ i in Finset.range m,
                combination_randomness.getD i 0 * (eqTable (points.getD i [])).getD j 0 := by
  obtain ⟨flen, fgetD⟩ := fold_eval_eq nv points combination_randomness s.weights hw hpt
    (by omega)
  rw [SumcheckSingle.add_new_equality, if_pos ⟨by omega, by omega⟩]
  refine ⟨_, rfl, rfl, ?_, ?_, ?_⟩
  · rw [foldl_add_map (fun re : R × R => re.1 * re.2) _ s.sum]
    rw [sum_map_zip_eq (fun q => q.1 * q.2) 0 0]
    rw [hr, he, Nat.min_self]
  · exact flen
  · intro j hj
    rw [fgetD j hj, hp]

/-- C2 witness: the theorem applied to a concrete one-variable state and a
single constraint over the integers. -/
theorem add_new_equality_spec_witness :
    (([[(2 : ℤ)]] : List (List ℤ)).length = 1
     ∧ ([(3 : ℤ)] : List ℤ).length = 1
     ∧ ([(4 : ℤ)] : List ℤ).length = 1
     ∧ (∀ pt ∈ ([[(2 : ℤ)]] : List (List ℤ)), pt.length = 1)
     ∧ (SumcheckSingle.mk [(5 : ℤ), 6] [7, 8] 9).weights.length = 2 ^ 1)
    ∧ (∃ s2, (SumcheckSingle.mk [(5 : ℤ), 6] [7, 8] 9).add_new_equality [[(2 : ℤ)]] [3] [4]
          = some s2
        ∧ s2.evaluation_of_p = (SumcheckSingle.mk [(5 : ℤ), 6] [7, 8] 9).evaluation_of_p
        ∧ s2.sum = (SumcheckSingle.mk [(5 : ℤ), 6] [7, 8] 9).sum
            + ∑ i in Finset.range 1, ([(3 : ℤ)] : List ℤ).getD i 0 * ([(4 : ℤ)] : List ℤ).getD i 0
        ∧ s2.weights.length = 2 ^ 1
        ∧ ∀ j, j < 2 ^ 1 →
            s2.weights.getD j 0 = (SumcheckSingle.mk [(5 : ℤ), 6] [7, 8] 9).weights.getD j 0
              + ∑ i in Finset.range 1,
                  ([(3 : ℤ)] : List ℤ).getD i 0
                    * (eqTable (([[(2 : ℤ)]] : List (List ℤ)).getD i [])).getD j 0) :=
  ⟨⟨rfl, rfl, rfl, by decide, by decide⟩,
   add_new_equality_spec (SumcheckSingle.mk [(5 : ℤ), 6] [7, 8] 9) [[(2 : ℤ)]] [3] [4] 1 1
     rfl rfl rfl (by decide) (by decide)⟩

/-- C3: a prover built from any coefficient list with at least one variable
and the empty statement has the all-zero weight table and zero sum, and its
round polynomial is identically zero (evaluations `(0, 0, 0)`). -/
theorem new_empty_statement (coeffs : List R) (r : R) (n : Nat) (hn : 1 ≤ n)
    (hc : coeffs.length = 2 ^ n) :
    (SumcheckSingle.new coeffs ⟨n, []⟩ r).weights = List.replicate (2 ^ n) 0
    ∧ (SumcheckSingle.new coeffs ⟨n, []⟩ r).sum = 0
    ∧ (SumcheckSingle.new coeffs ⟨n, []⟩ r).compute_sumcheck_polynomial
        = some ⟨[0, 0, 0], 1⟩ := by
  have hwq : (SumcheckSingle.new coeffs ⟨n, []⟩ r).weights = List.replicate (2 ^ n) 0 := rfl
  have hsum : (SumcheckSingle.new coeffs ⟨n, []⟩ r).sum = 0 := rfl
  have hplen : (SumcheckSingle.new coeffs ⟨n, []⟩ r).evaluation_of_p.length = 2 ^ n := by
    show (wavelet (log2n coeffs.length) coeffs).length = 2 ^ n
    rw [hc, log2n_two_pow]
    exact wavelet_length n coeffs hc
  have hwlen : (SumcheckSingle.new coeffs ⟨n, []⟩ r).weights.length = 2 ^ n := by
    rw [hwq, List.length_replicate]
  refine ⟨hwq, hsum, ?_⟩
  have h0 : (0 : R) = ∑ i in Finset.range (2 ^ (n - 1)),
      (SumcheckSingle.new coeffs ⟨n, []⟩ r).evaluation_of_p.getD (2 * i) 0
        * (SumcheckSingle.new coeffs ⟨n, []⟩ r).weights.getD (2 * i) 0 := by
    rw [hwq]
    simp [getD_replicate_zero]
  have h2 : (0 : R) = ∑ i in Finset.range (2 ^ (n - 1)),
      ((SumcheckSingle.new coeffs ⟨n, []⟩ r).evaluation_of_p.getD (2 * i + 1) 0
          - (SumcheckSingle.new coeffs ⟨n, []⟩ r).evaluation_of_p.getD (2 * i) 0)
        * ((SumcheckSingle.new coeffs ⟨n, []⟩ r).weights.getD (2 * i + 1) 0
          - (SumcheckSingle.new coeffs ⟨n, []⟩ r).weights.getD (2 * i) 0) := by
    rw [hwq]
    simp [getD_replicate_zero]
  have h := compute_sumcheck_polynomial_formula (SumcheckSingle.new coeffs ⟨n, []⟩ r) n hn
    hplen hwlen 0 0 h0 h2
  rw [h, hsum]
  norm_num

/-- C3 witness: the theorem applied to the one-variable coefficient list
`(1, 3)` over the integers. -/
theorem new_empty_statement_witness :
    ((1 : Nat) ≤ 1 ∧ ([(1 : ℤ), 3] : List ℤ).length = 2 ^ 1)
    ∧ ((SumcheckSingle.new [(1 : ℤ), 3] ⟨1, []⟩ 1).weights = List.replicate (2 ^ 1) 0
       ∧ (SumcheckSingle.new [(1 : ℤ), 3] ⟨1, []⟩ 1).sum = 0
       ∧ (SumcheckSingle.new [(1 : ℤ), 3] ⟨1, []⟩ 1).compute_sumcheck_polynomial
           = some ⟨[0, 0, 0], 1⟩) :=
  ⟨⟨le_refl 1, rfl⟩, new_empty_statement [(1 : ℤ), 3] 1 1 (le_refl 1) rfl⟩

end WhirP3
